import Mathlib

/-!
# Verification development for the four demonstrations of Effective-Modern-Cpp

Shallow embedding of

* `src/aligned_new.cpp`   : `jc::aligned_new`, `jc::aligned_release`, `main`
* `src/concatenation.cpp` : `jc::concat`, `main`
* `src/print_special_formatting.cpp` : `jc::format_guard`, `jc::operator<<`, `main`
* `src/random_sequence.cpp` : `jc::random_sequence`, `main`

Conventions of the embedding.

* Addresses and `std::size_t` values are natural numbers; `std::size_t` arithmetic is
  reduced modulo `2 ^ 64`.  The null pointer is address `0`.
* Side effects on the allocator and on object lifetimes are recorded in an event trace,
  oldest event first.
* What the C++ standard library supplies (the global aligned `operator new`, the default
  constructor of the element type, the random engine) is a parameter of the model.
-/

namespace jc

/-! ## `aligned_new.cpp` -/

/-- Product of two `std::size_t` values, as the expression `sizeof(T) * _Element_Count`. -/
def size_t_mul (a b : Nat) : Nat := (a * b) % 2 ^ 64

/-- Observable actions of the allocation utility. -/
inductive Event where
  /-- A call `::operator new(size, std::align_val_t{align})`; `none` is `std::bad_alloc`. -/
  | op_new (size align : Nat) (result : Option Nat)
  /-- A default constructor of `T` ran to completion on the storage at `addr`. -/
  | ctor (addr : Nat)
  /-- A default constructor of `T` started on the storage at `addr` and threw. -/
  | ctor_throw (addr : Nat)
  /-- The destructor `~T()` ran on the object at `addr`. -/
  | dtor (addr : Nat)
  /-- A call `::operator delete(p, size, std::align_val_t{align})`. -/
  | op_delete (p size align : Nat)
  deriving DecidableEq, Repr

/-- What leaves a function by exception. -/
inductive Exn where
  | bad_alloc
  /-- The exception thrown by the default constructor of element `index`. -/
  | ctor_exn (index : Nat)
  deriving DecidableEq, Repr

/-- The element type `T` as seen by the utility, with the library facilities it calls. -/
structure Env (T : Type) where
  /-- The value of `sizeof(T)`. -/
  sizeofT : Nat
  /-- The constant `std::hardware_constructive_interference_size`. -/
  align : Nat
  /-- Answer of `::operator new(size, std::align_val_t{align})`; `none` is `std::bad_alloc`. -/
  operator_new : Nat → Nat → Option Nat
  /-- Value of a default-constructed `T`. -/
  dflt : T
  /-- Whether `T()` throws when constructing array element `i`. -/
  ctor_throws : Nat → Bool

/-- Memory: the live `T` objects by address, and the trace of events so far. -/
structure Mem (T : Type) where
  objs : Nat → Option T
  trace : List Event

/-- Empty memory. -/
def Mem.empty {T : Type} : Mem T := ⟨fun _ => none, []⟩

/-- Append an event to the trace. -/
def Mem.log {T : Type} (m : Mem T) (e : Event) : Mem T :=
  { m with trace := m.trace ++ [e] }

/-- Replace the object slot at `addr`. -/
def Mem.put {T : Type} (m : Mem T) (addr : Nat) (v : Option T) : Mem T :=
  { m with objs := fun a => if a = addr then v else m.objs a }

/-- Address of `p[i]`, that is `p + i` in units of `sizeof(T)`. -/
def elem_addr {T : Type} (E : Env T) (p i : Nat) : Nat := p + i * E.sizeofT

/-- Construction loop of the array new-expression `new (res) T[n]`: elements `i`, `i+1`, ...
(`k` of them) are default-constructed in ascending order.  Returns `some j` when the
constructor of element `j` threw, `none` when all `k` constructors completed. -/
def array_construct {T : Type} (E : Env T) (res : Nat) : Nat → Nat → Mem T → Option Nat × Mem T
  | 0, _, m => (none, m)
  | k + 1, i, m =>
    if E.ctor_throws i then
      (some i, m.log (Event.ctor_throw (elem_addr E res i)))
    else
      array_construct E res k (i + 1)
        ((m.put (elem_addr E res i) (some E.dflt)).log (Event.ctor (elem_addr E res i)))

/-- Unwinding of a partially constructed array: the `j` elements already constructed are
destroyed in reverse order of construction (`j-1`, ..., `0`). -/
def array_unwind {T : Type} (E : Env T) (res : Nat) : Nat → Mem T → Mem T
  | 0, m => m
  | j + 1, m =>
    array_unwind E res j
      ((m.put (elem_addr E res j) none).log (Event.dtor (elem_addr E res j)))

/-- The new-expression `new (res) T[n]` with the non-allocating placement form: the
elements are built at `res`, `res + sizeof(T)`, ... with no array overhead in front.  When a
constructor throws, the elements constructed so far are destroyed, the matching placement
`operator delete[](void*, void*)` is called (it does nothing) and the exception
propagates. -/
def placement_array_new {T : Type} (E : Env T) (res n : Nat) (m : Mem T) :
    Except Exn Unit × Mem T :=
  match array_construct E res n 0 m with
  | (none, m1) => (Except.ok (), m1)
  | (some j, m1) => (Except.error (Exn.ctor_exn j), array_unwind E res j m1)

/-- Embedding of `jc::aligned_new<T, _Element_Count, _Default_Ctor>()`. -/
def aligned_new {T : Type} (E : Env T) (Element_Count : Nat) (Default_Ctor : Bool)
    (m : Mem T) : Except Exn Nat × Mem T :=
  if Element_Count = 0 then
    (Except.ok 0, m)
  else
    let size := size_t_mul E.sizeofT Element_Count
    match E.operator_new size E.align with
    | none => (Except.error Exn.bad_alloc, m.log (Event.op_new size E.align none))
    | some res =>
      let m1 := m.log (Event.op_new size E.align (some res))
      if Default_Ctor then
        match placement_array_new E res Element_Count m1 with
        | (Except.error e, m2) => (Except.error e, m2)
        | (Except.ok _, m2) => (Except.ok res, m2)
      else
        (Except.ok res, m1)

/-- The loop `for (i = i0; i < n; ++i) p[i].~T();` with `k = n - i0` iterations left. -/
def dtor_loop {T : Type} (E : Env T) (p : Nat) : Nat → Nat → Mem T → Mem T
  | 0, _, m => m
  | k + 1, i, m =>
    dtor_loop E p k (i + 1)
      ((m.put (elem_addr E p i) none).log (Event.dtor (elem_addr E p i)))

/-- Embedding of `jc::aligned_release<T, _Element_Count, _Dtor>(p)`. -/
def aligned_release {T : Type} (E : Env T) (Element_Count : Nat) (Dtor : Bool) (p : Nat)
    (m : Mem T) : Mem T :=
  if Element_Count = 0 then
    m
  else if p = 0 then
    m
  else
    let m1 := if Dtor then dtor_loop E p Element_Count 0 m else m
    m1.log (Event.op_delete p (size_t_mul E.sizeofT Element_Count) E.align)

/-- The assignment `p[i] = v`.  Assigning where no object lives is undefined: `none`. -/
def store {T : Type} (E : Env T) (p i : Nat) (v : T) (m : Mem T) : Option (Mem T) :=
  match m.objs (elem_addr E p i) with
  | none => none
  | some _ => some (m.put (elem_addr E p i) (some v))

/-- Reading `p[i]`. -/
def load {T : Type} (E : Env T) (p i : Nat) (m : Mem T) : Option T :=
  m.objs (elem_addr E p i)

/-- A sequence of assignments `p[i] = v`, performed left to right. -/
def store_all {T : Type} (E : Env T) (p : Nat) : List (Nat × T) → Mem T → Option (Mem T)
  | [], m => some m
  | (i, v) :: ws, m =>
    match store E p i v m with
    | none => none
    | some m1 => store_all E p ws m1

/-- The value most recently assigned to element `i` by the assignments `ws`, if any. -/
def last_written {T : Type} (i : Nat) : List (Nat × T) → Option T
  | [] => none
  | (j, v) :: ws =>
    match last_written i ws with
    | some u => some u
    | none => if j = i then some v else none

/-- The two loops of `main`: `p[i] = std::to_string(i)` for `i < n`, then the check
`p[i] == std::to_string(i)` for `i < n`.  Returns whether every assertion holds. -/
def main_aligned (E : Env String) (n : Nat) (m : Mem String) : Except Exn Bool × Mem String :=
  match aligned_new E n true m with
  | (Except.error e, m1) => (Except.error e, m1)
  | (Except.ok p, m1) =>
    match store_all E p ((List.range n).map (fun i => (i, toString i))) m1 with
    | none => (Except.ok false, m1)
    | some m2 =>
      let ok := (List.range n).all (fun i => load E p i m2 == some (toString i))
      (Except.ok ok, aligned_release E n true p m2)

/-- A concrete platform: 32-byte `std::string`, 64-byte lines, an allocator that answers a
request of alignment `a > 0` with address `64 * a`, no constructor throws. -/
def env_string : Env String :=
  { sizeofT := 32, align := 64,
    operator_new := fun _ a => if a = 0 then none else some (64 * a), dflt := "",
    ctor_throws := fun _ => false }

/-- A platform whose element constructor throws on the element of index `k`. -/
def env_throw_at (k : Nat) : Env Nat :=
  { sizeofT := 8, align := 64, operator_new := fun _ _ => some 4096, dflt := 0,
    ctor_throws := fun i => i == k }

/-- The `(size, alignment)` pairs handed to `::operator new`, in order. -/
def requests : List Event → List (Nat × Nat)
  | [] => []
  | Event.op_new size align _ :: es => (size, align) :: requests es
  | _ :: es => requests es

/-- The `(size, alignment)` pairs handed to `::operator delete`, in order. -/
def releases : List Event → List (Nat × Nat)
  | [] => []
  | Event.op_delete _ size align :: es => (size, align) :: releases es
  | _ :: es => releases es

/-- Whether an event is a deallocation. -/
def Event.is_delete : Event → Bool
  | Event.op_delete _ _ _ => true
  | _ => false

/-- Contract of the aligned global `operator new`: a block it returns is non-null and its
address is a multiple of the requested alignment. -/
def AllocatorAligned {T : Type} (E : Env T) : Prop :=
  ∀ size align res, E.operator_new size align = some res → res ≠ 0 ∧ res % align = 0

/-! ## `concatenation.cpp` -/

/-- A non-empty parameter pack `f, fs...` of callables: the last one accepts the argument
pack `A`, every earlier one accepts the result of its right neighbour. -/
inductive Pack : Type → Type → Type 1 where
  /-- The pack of a single callable (`sizeof...(fs) == 0`). -/
  | last {A R : Type} (f : A → R) : Pack A R
  /-- The pack `f, fs...` with `sizeof...(fs) > 0`. -/
  | more {A B R : Type} (f : B → R) (fs : Pack A B) : Pack A R

/-- Embedding of `jc::concat(f, fs...)`: with a non-empty rest the closure
`[=](auto... args) { return f(concat(fs...)(args...)); }`, otherwise `f`. -/
def concat : {A R : Type} → Pack A R → (A → R)
  | _, _, Pack.more f fs => fun args => f (concat fs args)
  | _, _, Pack.last f => f

/-- The pack `f1, ..., fk, g` built from unary callables of one type and a last callable. -/
def Pack.of_list {A R : Type} : List (R → R) → (A → R) → Pack A R
  | [], g => Pack.last g
  | f :: fs, g => Pack.more f (Pack.of_list fs g)

/-- Right-to-left composition as the specification words it: the arguments go to the last
callable and the result travels leftwards through the others. -/
def compose_right_to_left {A R : Type} (fs : List (R → R)) (g : A → R) (args : A) : R :=
  fs.foldr (fun f x => f x) (g args)

/-- The lambda `twice` of `main`. -/
def twice (i : Int) : Int := i * 2

/-- The lambda `thrice` of `main`. -/
def thrice (i : Int) : Int := i * 3

/-- The callable `std::plus<int>{}` applied to an argument pack of two. -/
def plus (args : Int × Int) : Int := args.1 + args.2

/-- The object `combined` of `main`. -/
def combined : Int × Int → Int :=
  concat (Pack.more twice (Pack.more thrice (Pack.last plus)))

/-! ## `print_special_formatting.cpp` -/

/-- The named bits of `std::ios_base::fmtflags`. -/
inductive fmtflag where
  | boolalpha | dec | fixed | hex | internal | left | oct | right
  | scientific | showbase | showpoint | showpos | skipws | unitbuf | uppercase
  deriving DecidableEq, Repr

/-- A value of the bitmask type `std::ios_base::fmtflags`: the set of bits that are on. -/
abbrev fmtflags := Finset fmtflag

/-- The mask `std::ios_base::basefield`. -/
def basefield : fmtflags := {fmtflag.dec, fmtflag.oct, fmtflag.hex}

/-- The mask `std::ios_base::floatfield`. -/
def floatfield : fmtflags := {fmtflag.scientific, fmtflag.fixed}

/-- An output stream: its format flags and what was inserted so far, each item with the
flags in force when it was formatted. -/
structure ostream where
  flags : fmtflags
  out : List (String × fmtflags)

/-- Operations on one stream. -/
inductive StreamOp where
  /-- The call `s.setf(f)`. -/
  | setf (f : fmtflags)
  /-- The call `s.setf(f, mask)`. -/
  | setf_mask (f mask : fmtflags)
  /-- The call `s.unsetf(mask)`. -/
  | unsetf (mask : fmtflags)
  /-- The call `s.flags(f)`. -/
  | set_flags (f : fmtflags)
  /-- The insertion `s << item` for an item of a built-in type. -/
  | put (item : String)

/-- Effect of one operation on a stream. -/
def ostream.apply (s : ostream) : StreamOp → ostream
  | StreamOp.setf f => { s with flags := s.flags ∪ f }
  | StreamOp.setf_mask f mask => { s with flags := (s.flags \ mask) ∪ (f ∩ mask) }
  | StreamOp.unsetf mask => { s with flags := s.flags \ mask }
  | StreamOp.set_flags f => { s with flags := f }
  | StreamOp.put item => { s with out := s.out ++ [(item, s.flags)] }

/-- The manipulator `std::hex`. -/
def hex : StreamOp := StreamOp.setf_mask {fmtflag.hex} basefield

/-- The manipulator `std::scientific`. -/
def scientific : StreamOp := StreamOp.setf_mask {fmtflag.scientific} floatfield

/-- The manipulator `std::showbase`. -/
def showbase : StreamOp := StreamOp.setf {fmtflag.showbase}

/-- The manipulator `std::uppercase`. -/
def uppercase : StreamOp := StreamOp.setf {fmtflag.uppercase}

/-- The manipulator `std::showpos`. -/
def showpos : StreamOp := StreamOp.setf {fmtflag.showpos}

/-- All the streams of the program, by identity. -/
abbrev World := Nat → ostream

/-- The identity of `std::cout`. -/
def cout : Nat := 0

/-- Replace stream `id`. -/
def World.set (w : World) (id : Nat) (s : ostream) : World :=
  fun j => if j = id then s else w j

/-- Perform one operation on stream `os`. -/
def World.op (w : World) (os : Nat) (o : StreamOp) : World :=
  w.set os ((w os).apply o)

/-- Perform operations, each on the stream it names, from left to right. -/
def World.run (w : World) : List (Nat × StreamOp) → World
  | [] => w
  | (os, o) :: rest => World.run (w.op os o) rest

/-- Embedding of `class format_guard`: the one data member `f`. -/
structure format_guard where
  f : fmtflags

/-- Construction of a `format_guard`: the default member initialiser
`f{std::cout.flags()}`. -/
def format_guard.ctor (w : World) : format_guard := ⟨(w cout).flags⟩

/-- The destructor `~format_guard() { std::cout.flags(f); }`. -/
def format_guard.dtor (g : format_guard) (w : World) : World :=
  w.op cout (StreamOp.set_flags g.f)

/-- A block `{ format_guard _; body }`. -/
def guarded_scope (body : World → World) (w : World) : World :=
  let g := format_guard.ctor w
  format_guard.dtor g (body w)

/-- Embedding of `struct scientific_type<T>`; the value is kept as its text. -/
structure scientific_type where
  value : String

/-- Embedding of `operator<<(std::ostream &os, const scientific_type<T> &w)`: a
`format_guard`, then `os << std::scientific << std::uppercase << std::showpos << w.value`;
the guard is destroyed after the return value is computed. -/
def operator_shl (os : Nat) (x : scientific_type) (w : World) : World :=
  guarded_scope
    (fun w1 => w1.run [(os, scientific), (os, uppercase), (os, showpos),
      (os, StreamOp.put x.value)]) w

/-- The first block of `main`. -/
def main_block (w : World) : World :=
  guarded_scope
    (fun w1 => w1.run [(cout, hex), (cout, scientific), (cout, showbase), (cout, uppercase),
      (cout, StreamOp.put "Numbers with special formatting:\n"),
      (cout, StreamOp.put "0x123abc"), (cout, StreamOp.put "\n"),
      (cout, StreamOp.put "0.123456789"), (cout, StreamOp.put "\n")]) w

/-- A program start: every stream has the flags `skipws | dec` of `std::basic_ios::init`
and has printed nothing. -/
def world_init : World := fun _ => ⟨{fmtflag.skipws, fmtflag.dec}, []⟩

/-! ## `random_sequence.cpp` -/

/-- The constant `INT_MAX` for the 32-bit `int`. -/
def INT_MAX : Nat := 2 ^ 31 - 1

/-- Conversion of a `std::size_t` to `int` (modulo `2 ^ 32`, two's complement). -/
def size_t_to_int (x : Nat) : Int := ((x : Int) + 2 ^ 31) % 2 ^ 32 - 2 ^ 31

/-- Conversion of an `int` to `std::size_t` (modulo `2 ^ 64`). -/
def int_to_size_t (x : Int) : Nat := (x % 2 ^ 64).toNat

/-- The library facilities used by `random_sequence`. -/
structure RandomLib where
  /-- The seed `rd()` obtained from `std::random_device`. -/
  rd : Nat
  /-- The `k`-th output of a `std::mt19937` seeded with the first argument. -/
  mt19937 : Nat → Nat → Nat
  /-- The value `std::uniform_int_distribution<int>(a, b)` makes of an engine output. -/
  uniform_int : Int → Int → Nat → Int
  /-- Under `std::execution::par`: which invocation of the generator fills element `i`. -/
  sched : Nat → Nat

/-- Contract of `std::uniform_int_distribution<int>(a, b)`: for `a <= b` every value it
produces lies in `[a, b]`. -/
def UniformIntContract (L : RandomLib) : Prop :=
  ∀ a b r, a ≤ b → a ≤ L.uniform_int a b r ∧ L.uniform_int a b r ≤ b

/-- Embedding of `jc::random_sequence<N, Min, Max>()`: a vector of `N` elements, each
filled by one call `d(mt)` of the generator. -/
def random_sequence (L : RandomLib) (N Min Max : Nat) : List Int :=
  (List.range N).map
    (fun i => L.uniform_int (size_t_to_int Min) (size_t_to_int Max) (L.mt19937 L.rd (L.sched i)))

/-- The call `std::sort(v.begin(), v.end())`: the ascending rearrangement of `v`. -/
def sort (v : List Int) : List Int := v.insertionSort (fun a b => a ≤ b)

/-- The call `std::count_if(v.begin(), v.end(), [i](int x) { return x == i; })` with `i` a
`std::size_t`: the comparison converts `x` to `std::size_t`. -/
def count_if (v : List Int) (i : Nat) : Nat :=
  v.countP (fun x => int_to_size_t x == i)

/-- The loop `for (auto i = Min; i <= Max; ++i) cnt.emplace_back(count_if ...)` with `i` a
`std::size_t`; `none` when the fuel is used up before the loop ends. -/
def count_loop (v : List Int) (Max : Nat) : Nat → Nat → List Nat → Option (List Nat)
  | 0, _, _ => none
  | fuel + 1, i, cnt =>
    if i ≤ Max then
      count_loop v Max fuel ((i + 1) % 2 ^ 64) (cnt ++ [count_if v i])
    else
      some cnt

/-- One step `init = std::move(init) + *first` of `std::accumulate` with an `int`
accumulator and a `std::size_t` element: the sum is formed in `std::size_t` and stored back
as `int`. -/
def accumulate_step (acc : Int) (c : Nat) : Int :=
  size_t_to_int ((int_to_size_t acc + c) % 2 ^ 64)

/-- The call `std::accumulate(cnt.begin(), cnt.end(), init)` with `init` an `int`: the
left fold of the range with `accumulate_step`. -/
def accumulate (cnt : List Nat) (init : Int) : Int :=
  cnt.foldl accumulate_step init

/-- Embedding of `main`: the value of the asserted condition
`std::accumulate(cnt.begin(), cnt.end(), 0) == N`; `none` when the fuel runs out. -/
def main_random (L : RandomLib) (N Min Max fuel : Nat) : Option Bool :=
  let v := sort (random_sequence L N Min Max)
  match count_loop v Max fuel Min [] with
  | none => none
  | some cnt => some (int_to_size_t (accumulate cnt 0) == N)

/-- A concrete library: engine outputs `seed + 7 * k`, the distribution reduces the output
into the range, element `i` is filled by invocation `i`. -/
def lib_demo : RandomLib :=
  { rd := 5, mt19937 := fun seed k => seed + 7 * k,
    uniform_int := fun a b r => a + (r : Int) % (b - a + 1), sched := fun i => i }

/-! ### Lemmas on the loops -/

theorem requests_append (xs ys : List Event) :
    requests (xs ++ ys) = requests xs ++ requests ys := by
  induction xs with
  | nil => rfl
  | cons x xs ih => cases x <;> simp [requests, ih]

theorem releases_append (xs ys : List Event) :
    releases (xs ++ ys) = releases xs ++ releases ys := by
  induction xs with
  | nil => rfl
  | cons x xs ih => cases x <;> simp [releases, ih]

theorem releases_map_dtor (f : Nat → Nat) (xs : List Nat) :
    releases (xs.map (fun i => Event.dtor (f i))) = [] := by
  induction xs with
  | nil => rfl
  | cons x xs ih => simpa [releases] using ih

theorem requests_map_ctor (f : Nat → Nat) (xs : List Nat) :
    requests (xs.map (fun i => Event.ctor (f i))) = [] := by
  induction xs with
  | nil => rfl
  | cons x xs ih => simpa [requests] using ih

theorem requests_map_dtor (f : Nat → Nat) (xs : List Nat) :
    requests (xs.map (fun i => Event.dtor (f i))) = [] := by
  induction xs with
  | nil => rfl
  | cons x xs ih => simpa [requests] using ih

theorem dtor_loop_trace {T : Type} (E : Env T) (p : Nat) (k i : Nat) (m : Mem T) :
    (dtor_loop E p k i m).trace =
      m.trace ++ (List.range' i k).map (fun j => Event.dtor (elem_addr E p j)) := by
  induction k generalizing i m with
  | zero => simp [dtor_loop]
  | succ k ih =>
    simp [dtor_loop, ih, Mem.log, Mem.put, List.range'_succ]

theorem dtor_loop_objs {T : Type} (E : Env T) (p : Nat) (k i : Nat) (m : Mem T) :
    (∀ a, m.objs a = none → (dtor_loop E p k i m).objs a = none) ∧
    (∀ j, i ≤ j → j < i + k → (dtor_loop E p k i m).objs (elem_addr E p j) = none) := by
  induction k generalizing i m with
  | zero =>
    refine ⟨fun a h => by simpa [dtor_loop] using h, fun j h1 h2 => by omega⟩
  | succ k ih =>
    obtain ⟨ih1, ih2⟩ := ih (i + 1)
      ((m.put (elem_addr E p i) none).log (Event.dtor (elem_addr E p i)))
    refine ⟨fun a h => ?_, fun j h1 h2 => ?_⟩
    · apply ih1
      simp only [Mem.log, Mem.put]
      split <;> simp [h]
    · by_cases hj : j = i
      · subst hj
        apply ih1
        simp [Mem.log, Mem.put]
      · exact ih2 j (by omega) (by omega)

theorem array_unwind_trace {T : Type} (E : Env T) (res : Nat) (j : Nat) (m : Mem T) :
    (array_unwind E res j m).trace =
      m.trace ++ ((List.range j).reverse).map (fun i => Event.dtor (elem_addr E res i)) := by
  induction j generalizing m with
  | zero => simp [array_unwind]
  | succ j ih =>
    simp [array_unwind, ih, Mem.log, Mem.put, List.range_succ]

theorem array_unwind_objs {T : Type} (E : Env T) (res : Nat) (j : Nat) (m : Mem T) :
    (∀ a, m.objs a = none → (array_unwind E res j m).objs a = none) ∧
    (∀ i, i < j → (array_unwind E res j m).objs (elem_addr E res i) = none) := by
  induction j generalizing m with
  | zero =>
    refine ⟨fun a h => by simpa [array_unwind] using h, fun i h => by omega⟩
  | succ j ih =>
    obtain ⟨ih1, ih2⟩ := ih
      ((m.put (elem_addr E res j) none).log (Event.dtor (elem_addr E res j)))
    refine ⟨fun a h => ?_, fun i hi => ?_⟩
    · apply ih1
      simp only [Mem.log, Mem.put]
      split <;> simp [h]
    · by_cases hj : i = j
      · subst hj
        apply ih1
        simp [Mem.log, Mem.put]
      · exact ih2 i (by omega)

theorem array_construct_ok {T : Type} (E : Env T) (res : Nat) (k i : Nat) (m : Mem T)
    (h : ∀ j, i ≤ j → j < i + k → E.ctor_throws j = false) :
    ∃ m1, array_construct E res k i m = (none, m1) ∧
      m1.trace = m.trace ++ (List.range' i k).map (fun j => Event.ctor (elem_addr E res j)) ∧
      (∀ a, m.objs a = some E.dflt → m1.objs a = some E.dflt) ∧
      (∀ j, i ≤ j → j < i + k → m1.objs (elem_addr E res j) = some E.dflt) := by
  induction k generalizing i m with
  | zero =>
    exact ⟨m, rfl, by simp, fun a h => h, fun j h1 h2 => by omega⟩
  | succ k ih =>
    obtain ⟨m1, h1, h2, h3, h4⟩ := ih (i + 1)
      ((m.put (elem_addr E res i) (some E.dflt)).log (Event.ctor (elem_addr E res i)))
      (fun j hj1 hj2 => h j (by omega) (by omega))
    refine ⟨m1, ?_, ?_, fun a ha => ?_, fun j hj1 hj2 => ?_⟩
    · simp [array_construct, h i (le_refl i) (by omega), h1]
    · simp [h2, Mem.log, Mem.put, List.range'_succ]
    · apply h3
      simp only [Mem.log, Mem.put]
      split <;> simp [ha]
    · by_cases hj : j = i
      · subst hj
        apply h3
        simp [Mem.log, Mem.put]
      · exact h4 j (by omega) (by omega)

theorem array_construct_throw {T : Type} (E : Env T) (res : Nat) (k i t : Nat) (m : Mem T)
    (hit : i ≤ t) (htk : t < i + k) (hthrow : E.ctor_throws t = true)
    (hbefore : ∀ j, i ≤ j → j < t → E.ctor_throws j = false) :
    ∃ m1, array_construct E res k i m = (some t, m1) ∧
      m1.trace = m.trace ++ (List.range' i (t - i)).map (fun j => Event.ctor (elem_addr E res j))
        ++ [Event.ctor_throw (elem_addr E res t)] := by
  induction k generalizing i m with
  | zero => omega
  | succ k ih =>
    by_cases hti : t = i
    · subst hti
      exact ⟨m.log (Event.ctor_throw (elem_addr E res t)),
        by simp [array_construct, hthrow], by simp [Mem.log]⟩
    · obtain ⟨m1, h1, h2⟩ := ih (i + 1)
        ((m.put (elem_addr E res i) (some E.dflt)).log (Event.ctor (elem_addr E res i)))
        (by omega) (by omega) (fun j hj1 hj2 => hbefore j (by omega) hj2)
      refine ⟨m1, ?_, ?_⟩
      · simp [array_construct, hbefore i (le_refl i) (by omega), h1]
      · have e : t - i = (t - (i + 1)) + 1 := by omega
        rw [h2, e]
        simp [Mem.log, Mem.put, List.range'_succ]

/-! ### `aligned_new` and `aligned_release` -/

theorem aligned_new_throw {T : Type} (E : Env T) (n k res : Nat) (m : Mem T)
    (hk : k < n) (hthrow : E.ctor_throws k = true)
    (hbefore : ∀ j, j < k → E.ctor_throws j = false)
    (halloc : E.operator_new (size_t_mul E.sizeofT n) E.align = some res) :
    ∃ m1, aligned_new E n true m = (Except.error (Exn.ctor_exn k), m1) ∧
      m1.trace = m.trace ++ [Event.op_new (size_t_mul E.sizeofT n) E.align (some res)]
        ++ (List.range k).map (fun i => Event.ctor (elem_addr E res i))
        ++ [Event.ctor_throw (elem_addr E res k)]
        ++ ((List.range k).reverse).map (fun i => Event.dtor (elem_addr E res i)) ∧
      (∀ i, i < k → m1.objs (elem_addr E res i) = none) := by
  obtain ⟨m2, h1, h2⟩ := array_construct_throw E res n 0 k
    (m.log (Event.op_new (size_t_mul E.sizeofT n) E.align (some res)))
    (Nat.zero_le k) (by omega) hthrow (fun j _ hj => hbefore j hj)
  have hn : n ≠ 0 := by omega
  refine ⟨array_unwind E res k m2, ?_, ?_, ?_⟩
  · simp [aligned_new, hn, halloc, placement_array_new, h1]
  · rw [array_unwind_trace, h2]
    simp [Mem.log, List.range_eq_range']
  · exact (array_unwind_objs E res k m2).2

theorem aligned_new_ok {T : Type} (E : Env T) (n res : Nat) (m : Mem T)
    (hn : 0 < n) (hctor : ∀ j, j < n → E.ctor_throws j = false)
    (halloc : E.operator_new (size_t_mul E.sizeofT n) E.align = some res) :
    ∃ m1, aligned_new E n true m = (Except.ok res, m1) ∧
      m1.trace = m.trace ++ [Event.op_new (size_t_mul E.sizeofT n) E.align (some res)]
        ++ (List.range n).map (fun i => Event.ctor (elem_addr E res i)) ∧
      (∀ i, i < n → m1.objs (elem_addr E res i) = some E.dflt) := by
  obtain ⟨m2, h1, h2, _, h4⟩ := array_construct_ok E res n 0
    (m.log (Event.op_new (size_t_mul E.sizeofT n) E.align (some res)))
    (fun j _ hj => hctor j (by omega))
  have hn0 : n ≠ 0 := by omega
  refine ⟨m2, ?_, ?_, fun i hi => h4 i (Nat.zero_le i) (by omega)⟩
  · simp [aligned_new, hn0, halloc, placement_array_new, h1]
  · rw [h2]
    simp [Mem.log, List.range_eq_range']

/-- Whatever `aligned_new` returns for a positive count is the block the allocator gave, and
with construction enabled its elements are all default-constructed. -/
theorem aligned_new_returns {T : Type} (E : Env T) (n : Nat) (c : Bool) (m m1 : Mem T)
    (p : Nat) (hn : 0 < n) (h : aligned_new E n c m = (Except.ok p, m1)) :
    E.operator_new (size_t_mul E.sizeofT n) E.align = some p ∧
      (c = true → ∀ i, i < n → m1.objs (elem_addr E p i) = some E.dflt) := by
  have hn0 : n ≠ 0 := by omega
  simp only [aligned_new, hn0, if_false] at h
  cases halloc : E.operator_new (size_t_mul E.sizeofT n) E.align with
  | none => simp [halloc] at h
  | some res =>
    simp only [halloc] at h
    cases c with
    | false =>
      simp at h
      exact ⟨by rw [h.1], by simp⟩
    | true =>
      simp only [if_true, placement_array_new] at h
      cases hc : array_construct E res n 0
          (m.log (Event.op_new (size_t_mul E.sizeofT n) E.align (some res))) with
      | mk r m2 =>
        cases r with
        | some j => simp [hc] at h
        | none =>
          simp [hc] at h
          obtain ⟨hp, hm⟩ := h
          subst hp hm
          refine ⟨rfl, fun _ i hi => ?_⟩
          by_cases hthrow : ∃ t, t < n ∧ E.ctor_throws t = true
          · obtain ⟨t, ht, htt⟩ := hthrow
            have hex : ∃ t, t < n ∧ E.ctor_throws t = true := ⟨t, ht, htt⟩
            classical
            let t0 := Nat.find hex
            have ht0 : t0 < n ∧ E.ctor_throws t0 = true := Nat.find_spec hex
            have hmin : ∀ j, j < t0 → E.ctor_throws j = false := by
              intro j hj
              have := Nat.find_min hex hj
              by_cases hjn : j < n
              · cases hv : E.ctor_throws j with
                | false => rfl
                | true => exact absurd ⟨hjn, hv⟩ this
              · omega
            obtain ⟨m3, h3, _⟩ := array_construct_throw E res n 0 t0
              (m.log (Event.op_new (size_t_mul E.sizeofT n) E.align (some res)))
              (Nat.zero_le _) (by omega) ht0.2 (fun j _ hj => hmin j hj)
            rw [hc] at h3
            simp at h3
          · have hall : ∀ j, 0 ≤ j → j < 0 + n → E.ctor_throws j = false := by
              intro j _ hj
              cases hv : E.ctor_throws j with
              | false => rfl
              | true => exact absurd ⟨j, by omega, hv⟩ hthrow
            obtain ⟨m3, h3, _, _, h6⟩ := array_construct_ok E res n 0
              (m.log (Event.op_new (size_t_mul E.sizeofT n) E.align (some res))) hall
            rw [hc] at h3
            simp at h3
            subst h3
            exact h6 i (Nat.zero_le i) (by omega)

theorem aligned_release_trace {T : Type} (E : Env T) (n p : Nat) (m : Mem T)
    (hn : 0 < n) (hp : p ≠ 0) :
    (aligned_release E n true p m).trace =
      m.trace ++ (List.range n).map (fun i => Event.dtor (elem_addr E p i))
        ++ [Event.op_delete p (size_t_mul E.sizeofT n) E.align] := by
  have hn0 : n ≠ 0 := by omega
  simp [aligned_release, hn0, hp, Mem.log, dtor_loop_trace, List.range_eq_range']

theorem releases_map_ctor (f : Nat → Nat) (xs : List Nat) :
    releases (xs.map (fun i => Event.ctor (f i))) = [] := by
  induction xs with
  | nil => rfl
  | cons x xs ih => simpa [releases] using ih

theorem array_construct_requests {T : Type} (E : Env T) (res : Nat) (k i : Nat) (m : Mem T) :
    requests (array_construct E res k i m).2.trace = requests m.trace := by
  induction k generalizing i m with
  | zero => rfl
  | succ k ih =>
    simp only [array_construct]
    split
    · simp [Mem.log, requests_append, requests]
    · rw [ih]
      simp [Mem.log, Mem.put, requests_append, requests]

theorem array_unwind_requests {T : Type} (E : Env T) (res : Nat) (j : Nat) (m : Mem T) :
    requests (array_unwind E res j m).trace = requests m.trace := by
  rw [array_unwind_trace, requests_append, requests_map_dtor]
  simp

theorem aligned_new_requests {T : Type} (E : Env T) (n : Nat) (c : Bool) (m : Mem T)
    (hn : 0 < n) :
    requests (aligned_new E n c m).2.trace =
      requests m.trace ++ [(size_t_mul E.sizeofT n, E.align)] := by
  have hn0 : n ≠ 0 := by omega
  simp only [aligned_new, hn0, if_false]
  cases halloc : E.operator_new (size_t_mul E.sizeofT n) E.align with
  | none => simp [Mem.log, requests_append, requests]
  | some res =>
    cases c with
    | false => simp [Mem.log, requests_append, requests]
    | true =>
      simp only [if_true, placement_array_new]
      have hc := array_construct_requests E res n 0
        (m.log (Event.op_new (size_t_mul E.sizeofT n) E.align (some res)))
      cases hr : array_construct E res n 0
          (m.log (Event.op_new (size_t_mul E.sizeofT n) E.align (some res))) with
      | mk r m2 =>
        rw [hr] at hc
        cases r with
        | none =>
          simp only
          rw [hc]
          simp [Mem.log, requests_append, requests]
        | some j =>
          simp only
          rw [array_unwind_requests, hc]
          simp [Mem.log, requests_append, requests]

theorem dtor_loop_releases {T : Type} (E : Env T) (p : Nat) (k i : Nat) (m : Mem T) :
    releases (dtor_loop E p k i m).trace = releases m.trace := by
  rw [dtor_loop_trace, releases_append, releases_map_dtor]
  simp

theorem aligned_release_releases {T : Type} (E : Env T) (n p : Nat) (d : Bool) (m : Mem T)
    (hn : 0 < n) (hp : p ≠ 0) :
    releases (aligned_release E n d p m).trace =
      releases m.trace ++ [(size_t_mul E.sizeofT n, E.align)] := by
  have hn0 : n ≠ 0 := by omega
  cases d with
  | false => simp [aligned_release, hn0, hp, Mem.log, releases_append, releases]
  | true =>
    simp [aligned_release, hn0, hp, Mem.log, releases_append, releases, dtor_loop_releases]

theorem elem_addr_inj {T : Type} (E : Env T) (p i j : Nat) (hsz : 0 < E.sizeofT)
    (h : elem_addr E p i = elem_addr E p j) : i = j := by
  unfold elem_addr at h
  have h2 : i * E.sizeofT = j * E.sizeofT := by omega
  exact Nat.eq_of_mul_eq_mul_right hsz h2

theorem store_all_spec {T : Type} (E : Env T) (p n : Nat) (hsz : 0 < E.sizeofT)
    (ws : List (Nat × T)) (m : Mem T)
    (hlive : ∀ i, i < n → ∃ v, m.objs (elem_addr E p i) = some v)
    (hws : ∀ w ∈ ws, w.1 < n) :
    ∃ m2, store_all E p ws m = some m2 ∧
      ∀ i, i < n → load E p i m2 =
        match last_written i ws with
        | some u => some u
        | none => load E p i m := by
  induction ws generalizing m with
  | nil => exact ⟨m, rfl, fun i _ => rfl⟩
  | cons w ws ih =>
    obtain ⟨j, v⟩ := w
    have hj : j < n := hws (j, v) (List.mem_cons_self _ _)
    obtain ⟨u, hu⟩ := hlive j hj
    have hst : store E p j v m = some (m.put (elem_addr E p j) (some v)) := by
      simp [store, hu]
    have hlive1 : ∀ i, i < n → ∃ x, (m.put (elem_addr E p j) (some v)).objs (elem_addr E p i)
        = some x := by
      intro i hi
      simp only [Mem.put]
      split
      · exact ⟨v, rfl⟩
      · exact hlive i hi
    obtain ⟨m2, h1, h2⟩ := ih (m.put (elem_addr E p j) (some v)) hlive1
      (fun w hw => hws w (List.mem_cons_of_mem _ hw))
    refine ⟨m2, by simp [store_all, hst, h1], fun i hi => ?_⟩
    rw [h2 i hi]
    simp only [last_written]
    cases hl : last_written i ws with
    | some x => rfl
    | none =>
      simp only [load, Mem.put]
      by_cases hji : j = i
      · subst hji
        simp
      · have hne : elem_addr E p i ≠ elem_addr E p j := fun h =>
          hji (elem_addr_inj E p i j hsz h).symm
        simp [hne, hji]

theorem last_written_map {T : Type} (vals : Nat → T) (i : Nat) (xs : List Nat) :
    last_written i (xs.map (fun j => (j, vals j))) = if i ∈ xs then some (vals i) else none := by
  induction xs with
  | nil => simp [last_written]
  | cons x xs ih =>
    simp only [List.map_cons, last_written, ih, List.mem_cons]
    by_cases hx : i ∈ xs
    · simp [hx]
    · by_cases hxi : x = i
      · subst hxi
        simp [hx]
      · have : ¬ i = x := fun h => hxi h.symm
        simp [hx, hxi, this]

/-! ### Claims on `aligned_new.cpp` -/

/-- C1, as stated, fails: with four elements of which the third throws on construction,
`aligned_new` leaves by the constructor's exception after the allocator handed out a block,
the two constructed elements are destroyed, and the trace holds no deallocation at all. -/
theorem aligned_new_throw_leaks_block :
    (aligned_new (env_throw_at 2) 4 true Mem.empty).1 = Except.error (Exn.ctor_exn 2) ∧
    (aligned_new (env_throw_at 2) 4 true Mem.empty).2.trace =
      [Event.op_new 32 64 (some 4096), Event.ctor 4096, Event.ctor 4104,
        Event.ctor_throw 4112, Event.dtor 4104, Event.dtor 4096] ∧
    releases (aligned_new (env_throw_at 2) 4 true Mem.empty).2.trace = [] ∧
    (aligned_new (env_throw_at 2) 4 true Mem.empty).2.trace.any Event.is_delete = false := by
  refine ⟨rfl, by decide, by decide, by decide⟩

/-- C1, amended: when the default constructor of element `k` is the first to throw during
`aligned_new<T, n>` (the allocator having supplied block `res`), the call leaves by that
exception; by then the `k` elements already constructed have each been destroyed once, in
reverse order of construction, and none of them is alive; `aligned_new` itself hands
nothing to the deallocator. -/
theorem aligned_new_ctor_throw_unwinds {T : Type} (E : Env T) (n k res : Nat) (m : Mem T)
    (hk : k < n) (hthrow : E.ctor_throws k = true)
    (hbefore : ∀ j, j < k → E.ctor_throws j = false)
    (halloc : E.operator_new (size_t_mul E.sizeofT n) E.align = some res) :
    (aligned_new E n true m).1 = Except.error (Exn.ctor_exn k) ∧
    (aligned_new E n true m).2.trace =
      m.trace ++ [Event.op_new (size_t_mul E.sizeofT n) E.align (some res)]
        ++ (List.range k).map (fun i => Event.ctor (elem_addr E res i))
        ++ [Event.ctor_throw (elem_addr E res k)]
        ++ ((List.range k).reverse).map (fun i => Event.dtor (elem_addr E res i)) ∧
    (∀ i, i < k → (aligned_new E n true m).2.objs (elem_addr E res i) = none) ∧
    releases (aligned_new E n true m).2.trace = releases m.trace := by
  obtain ⟨m1, h1, h2, h3⟩ := aligned_new_throw E n k res m hk hthrow hbefore halloc
  rw [h1]
  refine ⟨rfl, h2, h3, ?_⟩
  simp only [h2, releases_append, releases_map_ctor, releases_map_dtor]
  simp [releases]

/-- Instance of the amended C1 on the platform whose third constructor throws. -/
theorem aligned_new_ctor_throw_unwinds_witness :
    (2 < 4 ∧ (env_throw_at 2).ctor_throws 2 = true ∧
      (∀ j, j < 2 → (env_throw_at 2).ctor_throws j = false) ∧
      (env_throw_at 2).operator_new (size_t_mul (env_throw_at 2).sizeofT 4)
        (env_throw_at 2).align = some 4096) ∧
    ((aligned_new (env_throw_at 2) 4 true Mem.empty).1 = Except.error (Exn.ctor_exn 2) ∧
    (aligned_new (env_throw_at 2) 4 true Mem.empty).2.trace =
      (Mem.empty : Mem Nat).trace
        ++ [Event.op_new (size_t_mul (env_throw_at 2).sizeofT 4) (env_throw_at 2).align
              (some 4096)]
        ++ (List.range 2).map (fun i => Event.ctor (elem_addr (env_throw_at 2) 4096 i))
        ++ [Event.ctor_throw (elem_addr (env_throw_at 2) 4096 2)]
        ++ ((List.range 2).reverse).map
              (fun i => Event.dtor (elem_addr (env_throw_at 2) 4096 i)) ∧
    (∀ i, i < 2 →
      (aligned_new (env_throw_at 2) 4 true Mem.empty).2.objs
        (elem_addr (env_throw_at 2) 4096 i) = none) ∧
    releases (aligned_new (env_throw_at 2) 4 true Mem.empty).2.trace =
      releases (Mem.empty : Mem Nat).trace) :=
  ⟨⟨by decide, rfl, by decide, rfl⟩,
    aligned_new_ctor_throw_unwinds (env_throw_at 2) 4 2 4096 Mem.empty (by decide) rfl
      (by decide) rfl⟩

/-- C2: on the handle `p` returned by `aligned_new<T, n>()`, `n > 0`, any sequence of
assignments to elements of index below `n` is well defined, and afterwards reading element
`i` yields the value last assigned to element `i` (the default-constructed value where none
was assigned); in particular after `p[i] = vals i` for every `i < n`, each `p[i]` reads
`vals i`. -/
theorem aligned_buffer_round_trip {T : Type} (E : Env T) (n p : Nat) (m m1 : Mem T)
    (hn : 0 < n) (hsz : 0 < E.sizeofT)
    (hnew : aligned_new E n true m = (Except.ok p, m1)) :
    (∀ ws : List (Nat × T), (∀ w ∈ ws, w.1 < n) →
      ∃ m2, store_all E p ws m1 = some m2 ∧
        ∀ i, i < n → load E p i m2 = some ((last_written i ws).getD E.dflt)) ∧
    (∀ vals : Nat → T,
      ∃ m2, store_all E p ((List.range n).map (fun i => (i, vals i))) m1 = some m2 ∧
        ∀ i, i < n → load E p i m2 = some (vals i)) := by
  have hlive := (aligned_new_returns E n true m m1 p hn hnew).2 rfl
  have gen : ∀ ws : List (Nat × T), (∀ w ∈ ws, w.1 < n) →
      ∃ m2, store_all E p ws m1 = some m2 ∧
        ∀ i, i < n → load E p i m2 = some ((last_written i ws).getD E.dflt) := by
    intro ws hws
    obtain ⟨m2, h1, h2⟩ := store_all_spec E p n hsz ws m1
      (fun i hi => ⟨E.dflt, hlive i hi⟩) hws
    refine ⟨m2, h1, fun i hi => ?_⟩
    rw [h2 i hi]
    cases hl : last_written i ws with
    | some u => simp
    | none => simpa [load] using hlive i hi
  refine ⟨gen, fun vals => ?_⟩
  obtain ⟨m2, h1, h2⟩ := gen ((List.range n).map (fun i => (i, vals i)))
    (by
      intro w hw
      simp only [List.mem_map, List.mem_range] at hw
      obtain ⟨a, ha, rfl⟩ := hw
      exact ha)
  refine ⟨m2, h1, fun i hi => ?_⟩
  rw [h2 i hi, last_written_map]
  simp [hi]

/-- Instance of C2: three strings on the concrete platform. -/
theorem aligned_buffer_round_trip_witness :
    (0 < 3 ∧ 0 < env_string.sizeofT ∧
      aligned_new env_string 3 true Mem.empty =
        (Except.ok 4096, (aligned_new env_string 3 true Mem.empty).2)) ∧
    ((∀ ws : List (Nat × String), (∀ w ∈ ws, w.1 < 3) →
      ∃ m2, store_all env_string 4096 ws (aligned_new env_string 3 true Mem.empty).2 = some m2 ∧
        ∀ i, i < 3 → load env_string 4096 i m2 = some ((last_written i ws).getD env_string.dflt)) ∧
    (∀ vals : Nat → String,
      ∃ m2, store_all env_string 4096 ((List.range 3).map (fun i => (i, vals i)))
          (aligned_new env_string 3 true Mem.empty).2 = some m2 ∧
        ∀ i, i < 3 → load env_string 4096 i m2 = some (vals i))) :=
  ⟨⟨by decide, by decide, rfl⟩,
    aligned_buffer_round_trip env_string 3 4096 Mem.empty
      (aligned_new env_string 3 true Mem.empty).2 (by decide) (by decide) rfl⟩

/-- The assertions of `main` hold and the run ends with the three destructions and the one
deallocation. -/
theorem main_aligned_run :
    (main_aligned env_string 3 Mem.empty).1 = Except.ok true ∧
    (main_aligned env_string 3 Mem.empty).2.trace =
      [Event.op_new 96 64 (some 4096), Event.ctor 4096, Event.ctor 4128, Event.ctor 4160,
        Event.dtor 4096, Event.dtor 4128, Event.dtor 4160, Event.op_delete 4096 96 64] := by
  refine ⟨by rfl, by decide⟩

/-- C3: for `n > 0` and a non-null `p`, `aligned_release<T, n, true>(p)` appends to the
trace the destructor calls of elements `0, 1, ..., n-1` in this order (`n` calls), followed
by one deallocation of the block, and nothing else; afterwards no element is alive. -/
theorem aligned_release_destroys_then_frees {T : Type} (E : Env T) (n p : Nat) (m : Mem T)
    (hn : 0 < n) (hp : p ≠ 0) :
    (aligned_release E n true p m).trace =
      m.trace ++ (List.range n).map (fun i => Event.dtor (elem_addr E p i))
        ++ [Event.op_delete p (size_t_mul E.sizeofT n) E.align] ∧
    ((List.range n).map (fun i => Event.dtor (elem_addr E p i))).length = n ∧
    (∀ i, i < n → (aligned_release E n true p m).objs (elem_addr E p i) = none) := by
  refine ⟨aligned_release_trace E n p m hn hp, by simp, fun i hi => ?_⟩
  have hn0 : n ≠ 0 := by omega
  have h := (dtor_loop_objs E p n 0 m).2 i (Nat.zero_le i) (by omega)
  simpa [aligned_release, hn0, hp, Mem.log] using h

/-- Instance of C3: releasing three strings at address `4096`. -/
theorem aligned_release_destroys_then_frees_witness :
    (0 < 3 ∧ (4096 : Nat) ≠ 0) ∧
    ((aligned_release env_string 3 true 4096 Mem.empty).trace =
      (Mem.empty : Mem String).trace
        ++ (List.range 3).map (fun i => Event.dtor (elem_addr env_string 4096 i))
        ++ [Event.op_delete 4096 (size_t_mul env_string.sizeofT 3) env_string.align] ∧
    ((List.range 3).map (fun i => Event.dtor (elem_addr env_string 4096 i))).length = 3 ∧
    (∀ i, i < 3 →
      (aligned_release env_string 3 true 4096 Mem.empty).objs (elem_addr env_string 4096 i)
        = none)) :=
  ⟨⟨by decide, by decide⟩,
    aligned_release_destroys_then_frees env_string 3 4096 Mem.empty (by decide) (by decide)⟩

/-- C4: with element count `0`, `aligned_new` returns the null handle and leaves memory and
trace untouched (no request reaches the allocator), and `aligned_release` with count `0`
returns its memory unchanged for every handle, the null one included: no destructor, no
deallocation. -/
theorem zero_count_is_noop {T : Type} (E : Env T) (c d : Bool) (p : Nat) (m : Mem T) :
    aligned_new E 0 c m = (Except.ok 0, m) ∧
    aligned_release E 0 d 0 m = m ∧
    aligned_release E 0 d p m = m := by
  refine ⟨by simp [aligned_new], by simp [aligned_release], by simp [aligned_release]⟩

/-- C5: for `n > 0`, `aligned_new<T, n>` makes exactly one request to the allocator and
`aligned_release<T, n>` on a non-null handle makes exactly one call of the deallocator, and
both carry the same size, the `std::size_t` product `sizeof(T) * n`, and the same
alignment; the product is the exact one whenever it fits in `std::size_t`. -/
theorem release_metadata_matches_new {T : Type} (E : Env T) (n p : Nat) (c d : Bool)
    (m m1 : Mem T) (hn : 0 < n) (hp : p ≠ 0) :
    requests (aligned_new E n c m).2.trace =
      requests m.trace ++ [(size_t_mul E.sizeofT n, E.align)] ∧
    releases (aligned_release E n d p m1).trace =
      releases m1.trace ++ [(size_t_mul E.sizeofT n, E.align)] ∧
    (E.sizeofT * n < 2 ^ 64 → size_t_mul E.sizeofT n = E.sizeofT * n) := by
  refine ⟨aligned_new_requests E n c m hn, aligned_release_releases E n p d m1 hn hp, ?_⟩
  intro h
  exact Nat.mod_eq_of_lt h

/-- Instance of C5: three strings, allocated and then released. -/
theorem release_metadata_matches_new_witness :
    (0 < 3 ∧ (4096 : Nat) ≠ 0) ∧
    (requests (aligned_new env_string 3 true Mem.empty).2.trace =
      requests (Mem.empty : Mem String).trace ++ [(size_t_mul env_string.sizeofT 3, env_string.align)] ∧
    releases (aligned_release env_string 3 true 4096
        (aligned_new env_string 3 true Mem.empty).2).trace =
      releases (aligned_new env_string 3 true Mem.empty).2.trace
        ++ [(size_t_mul env_string.sizeofT 3, env_string.align)] ∧
    (env_string.sizeofT * 3 < 2 ^ 64 → size_t_mul env_string.sizeofT 3 = env_string.sizeofT * 3)) :=
  ⟨⟨by decide, by decide⟩,
    release_metadata_matches_new env_string 3 4096 true true Mem.empty
      (aligned_new env_string 3 true Mem.empty).2 (by decide) (by decide)⟩

/-- C6: for `n > 0`, with an aligned `operator new` honouring its contract, every handle
that `aligned_new<T, n>()` returns is the block the allocator supplied for the request of
alignment `a`, is non-null and has an address that is a multiple of `a`; and a handle is
returned whenever the allocator supplies a block and no constructor throws. -/
theorem aligned_new_handle_aligned {T : Type} (E : Env T) (n : Nat) (m : Mem T)
    (hn : 0 < n) (hA : AllocatorAligned E) :
    (∀ p m1, aligned_new E n true m = (Except.ok p, m1) →
      E.operator_new (size_t_mul E.sizeofT n) E.align = some p ∧ p ≠ 0 ∧ p % E.align = 0) ∧
    (∀ res, E.operator_new (size_t_mul E.sizeofT n) E.align = some res →
      (∀ j, j < n → E.ctor_throws j = false) →
      (aligned_new E n true m).1 = Except.ok res ∧ res % E.align = 0) := by
  constructor
  · intro p m1 h
    have h1 := (aligned_new_returns E n true m m1 p hn h).1
    exact ⟨h1, hA _ _ _ h1⟩
  · intro res halloc hctor
    obtain ⟨m1, h1, _⟩ := aligned_new_ok E n res m hn hctor halloc
    rw [h1]
    exact ⟨rfl, (hA _ _ _ halloc).2⟩

/-- Instance of C6: three strings; the allocator answers `4096`, a multiple of `64`. -/
theorem aligned_new_handle_aligned_witness :
    (0 < 3 ∧ AllocatorAligned env_string) ∧
    ((∀ p m1, aligned_new env_string 3 true Mem.empty = (Except.ok p, m1) →
      env_string.operator_new (size_t_mul env_string.sizeofT 3) env_string.align = some p ∧
        p ≠ 0 ∧ p % env_string.align = 0) ∧
    (∀ res, env_string.operator_new (size_t_mul env_string.sizeofT 3) env_string.align = some res →
      (∀ j, j < 3 → env_string.ctor_throws j = false) →
      (aligned_new env_string 3 true Mem.empty).1 = Except.ok res ∧
        res % env_string.align = 0)) :=
  have hA : AllocatorAligned env_string := by
    intro size align res h
    simp only [env_string] at h
    split at h
    · exact absurd h (by simp)
    · rename_i ha
      simp only [Option.some.injEq] at h
      subst h
      exact ⟨Nat.mul_ne_zero (by decide) ha, Nat.mul_mod_left 64 align⟩
  ⟨⟨by decide, hA⟩, aligned_new_handle_aligned env_string 3 Mem.empty (by decide) hA⟩

/-! ### Claims on `concatenation.cpp` -/

theorem concat_of_list {A R : Type} (fs : List (R → R)) (g : A → R) (args : A) :
    concat (Pack.of_list fs g) args = compose_right_to_left fs g args := by
  induction fs with
  | nil => simp [Pack.of_list, concat, compose_right_to_left]
  | cons f fs ih =>
    simp only [Pack.of_list, concat, ih]
    simp [compose_right_to_left]

/-- C7: `concat` is right-to-left composition: `concat(f)` is `f`;
`concat(f, gs...)(args...)` is `f(concat(gs...)(args...))`; for callables `f1, ..., fk, g`
the call `concat(f1, ..., fk, g)(args...)` is `f1(f2(...fk(g(args...))...))`; and
`concat(twice, thrice, plus)(2, 3)` is `30`. -/
theorem concat_is_right_to_left_composition :
    (∀ (A R : Type) (f : A → R), concat (Pack.last f) = f) ∧
    (∀ (A B R : Type) (f : B → R) (gs : Pack A B) (args : A),
      concat (Pack.more f gs) args = f (concat gs args)) ∧
    (∀ (A R : Type) (fs : List (R → R)) (g : A → R) (args : A),
      concat (Pack.of_list fs g) args = compose_right_to_left fs g args) ∧
    (∀ (A B C R : Type) (f1 : C → R) (f2 : B → C) (f3 : A → B) (args : A),
      concat (Pack.more f1 (Pack.more f2 (Pack.last f3))) args = f1 (f2 (f3 args))) ∧
    combined (2, 3) = 30 := by
  refine ⟨fun A R f => ?_, fun A B R f gs args => ?_, fun A R fs g args => ?_,
    fun A B C R f1 f2 f3 args => ?_, ?_⟩
  · simp [concat]
  · simp [concat]
  · exact concat_of_list fs g args
  · simp [concat]
  · simp [combined, concat, twice, thrice, plus]

/-! ### Claims on `print_special_formatting.cpp` -/

theorem format_guard_dtor_flags (g : format_guard) (w : World) :
    ((g.dtor w) cout).flags = g.f := by
  simp [format_guard.dtor, World.op, World.set, ostream.apply]

theorem format_guard_dtor_frame (g : format_guard) (w : World) (os : Nat) (h : os ≠ cout) :
    (g.dtor w) os = w os := by
  simp [format_guard.dtor, World.op, World.set, h]

/-- C8: whatever flags `F` `std::cout` has when a `format_guard` is constructed and whatever
is done to the streams while the guard is alive (any sequence of `setf`, `unsetf`,
`flags` and insertions on any streams, and indeed any body at all), the flags of `std::cout`
are `F` again once the guard is destroyed; the first block of `main` is an instance. -/
theorem format_guard_restores_flags (w : World) :
    (∀ ops : List (Nat × StreamOp),
      ((guarded_scope (fun w1 => w1.run ops) w) cout).flags = (w cout).flags) ∧
    (∀ body : World → World, ((guarded_scope body w) cout).flags = (w cout).flags) ∧
    ((main_block w) cout).flags = (w cout).flags := by
  refine ⟨fun ops => ?_, fun body => ?_, ?_⟩
  · simp [guarded_scope, format_guard_dtor_flags, format_guard.ctor]
  · simp [guarded_scope, format_guard_dtor_flags, format_guard.ctor]
  · simp [main_block, guarded_scope, format_guard_dtor_flags, format_guard.ctor]

/-- Inserting a `scientific_type` into `std::cout` itself leaves the flags of `std::cout`
as they were. -/
theorem operator_shl_cout_flags (x : scientific_type) (w : World) :
    ((operator_shl cout x w) cout).flags = (w cout).flags := by
  simp [operator_shl, guarded_scope, format_guard_dtor_flags, format_guard.ctor]

/-- Inserting a `scientific_type` into a stream other than `std::cout` leaves on that
stream the flags set for printing: the guard inside `operator<<` saves and restores the
flags of `std::cout`. -/
theorem operator_shl_other_flags (os : Nat) (x : scientific_type) (w : World)
    (h : os ≠ cout) :
    ((operator_shl os x w) os).flags =
      (((w os).flags \ floatfield) ∪ ({fmtflag.scientific} ∩ floatfield))
        ∪ {fmtflag.uppercase} ∪ {fmtflag.showpos} := by
  simp only [operator_shl, guarded_scope]
  rw [format_guard_dtor_frame _ _ os h]
  simp [World.run, World.op, World.set, ostream.apply, scientific, uppercase, showpos]

/-- C10 at the failing input: on a stream other than `std::cout` (identity `1`) whose flags
are `skipws | dec`, inserting `scientific_type{123.0}` ends with the flags
`skipws | dec | scientific | uppercase | showpos`, which differ from the flags before. -/
theorem operator_shl_changes_flags_of_other_stream :
    (world_init 1).flags = {fmtflag.skipws, fmtflag.dec} ∧
    ((operator_shl 1 ⟨"123.0"⟩ world_init) 1).flags =
      {fmtflag.skipws, fmtflag.dec, fmtflag.scientific, fmtflag.uppercase, fmtflag.showpos} ∧
    ((operator_shl 1 ⟨"123.0"⟩ world_init) 1).flags ≠ (world_init 1).flags := by
  refine ⟨by decide, by decide, by decide⟩

/-! ### Claims on `random_sequence.cpp` -/

theorem size_t_to_int_of_le (x : Nat) (h : x ≤ INT_MAX) : size_t_to_int x = (x : Int) := by
  unfold size_t_to_int
  unfold INT_MAX at h
  omega

theorem int_to_size_t_of_nat (x : Nat) (h : x < 2 ^ 64) : int_to_size_t (x : Int) = x := by
  unfold int_to_size_t
  omega

theorem random_sequence_length (L : RandomLib) (N Min Max : Nat) :
    (random_sequence L N Min Max).length = N := by
  simp [random_sequence]

theorem random_sequence_range (L : RandomLib) (N Min Max : Nat) (hmm : Min ≤ Max)
    (hmax : Max ≤ INT_MAX) (hL : UniformIntContract L) :
    ∀ x ∈ random_sequence L N Min Max, (Min : Int) ≤ x ∧ x ≤ (Max : Int) := by
  intro x hx
  simp only [random_sequence, List.mem_map, List.mem_range] at hx
  obtain ⟨i, _, rfl⟩ := hx
  rw [size_t_to_int_of_le Min (le_trans hmm hmax), size_t_to_int_of_le Max hmax]
  exact hL _ _ _ (by exact_mod_cast hmm)

theorem indicator_sum (k a n : Nat) :
    ((List.range' a n).map (fun i => if k = i then 1 else 0)).sum =
      if a ≤ k ∧ k < a + n then 1 else 0 := by
  induction n generalizing a with
  | zero =>
    have : ¬ (a ≤ k ∧ k < a) := by omega
    simp [this]
  | succ n ih =>
    simp only [List.range'_succ, List.map_cons, List.sum_cons, ih]
    by_cases hka : k = a
    · subst hka
      have h1 : ¬ (k + 1 ≤ k ∧ k < k + 1 + n) := by omega
      have h2 : k ≤ k ∧ k < k + (n + 1) := by omega
      simp [h1, h2]
    · by_cases hin : a + 1 ≤ k ∧ k < a + 1 + n
      · have h2 : a ≤ k ∧ k < a + (n + 1) := by omega
        simp [hka, hin, h2]
      · have h2 : ¬ (a ≤ k ∧ k < a + (n + 1)) := by omega
        simp [hka, hin, h2]

theorem count_if_cons (x : Int) (v : List Int) (i : Nat) :
    count_if (x :: v) i = count_if v i + (if int_to_size_t x = i then 1 else 0) := by
  simp [count_if, List.countP_cons]

theorem counts_sum (v : List Int) (a n : Nat)
    (h : ∀ x ∈ v, a ≤ int_to_size_t x ∧ int_to_size_t x < a + n) :
    ((List.range' a n).map (count_if v)).sum = v.length := by
  induction v with
  | nil =>
    have e : count_if [] = fun _ => 0 := by
      funext i
      simp [count_if]
    simp [e]
  | cons x v ih =>
    have hx := h x (List.mem_cons_self _ _)
    have hv := ih (fun y hy => h y (List.mem_cons_of_mem _ hy))
    have e : (List.range' a n).map (count_if (x :: v)) =
        (List.range' a n).map
          (fun i => count_if v i + (if int_to_size_t x = i then 1 else 0)) := by
      apply List.map_congr_left
      intro i _
      exact count_if_cons x v i
    rw [e, List.sum_map_add, hv, indicator_sum]
    simp [hx]

theorem count_loop_spec (v : List Int) (Max : Nat) (hMax : Max < 2 ^ 64 - 1)
    (fuel i : Nat) (cnt : List Nat) (hi : i ≤ Max + 1) (hfuel : Max + 2 - i ≤ fuel) :
    count_loop v Max fuel i cnt = some (cnt ++ (List.range' i (Max + 1 - i)).map (count_if v)) := by
  induction fuel generalizing i cnt with
  | zero => omega
  | succ fuel ih =>
    simp only [count_loop]
    by_cases hle : i ≤ Max
    · have hmod : (i + 1) % 2 ^ 64 = i + 1 := Nat.mod_eq_of_lt (by omega)
      have e : Max + 1 - i = (Max + 1 - (i + 1)) + 1 := by omega
      rw [if_pos hle, hmod, ih (i + 1) _ (by omega) (by omega), e]
      simp [List.range'_succ]
    · have e : Max + 1 - i = 0 := by omega
      rw [if_neg hle, e]
      simp

theorem accumulate_step_of_le (acc c : Nat) (h : acc + c ≤ INT_MAX) :
    accumulate_step (acc : Int) c = ((acc + c : Nat) : Int) := by
  have hI : INT_MAX = 2147483647 := by norm_num [INT_MAX]
  have hacc : acc < 2 ^ 64 := by omega
  have hsum : acc + c < 2 ^ 64 := by omega
  unfold accumulate_step
  rw [int_to_size_t_of_nat acc hacc, Nat.mod_eq_of_lt hsum, size_t_to_int_of_le (acc + c) h]

theorem accumulate_spec (cnt : List Nat) (acc : Nat) (h : acc + cnt.sum ≤ INT_MAX) :
    accumulate cnt (acc : Int) = ((acc + cnt.sum : Nat) : Int) := by
  unfold accumulate
  induction cnt generalizing acc with
  | nil => rfl
  | cons c cs ih =>
    rw [List.sum_cons] at h
    rw [List.foldl_cons, accumulate_step_of_le acc c (by omega), ih (acc + c) (by omega),
      List.sum_cons, Nat.add_assoc]

/-- Above `INT_MAX` the `int` accumulator of `std::accumulate` wraps: a single count of
`2 ^ 31` accumulates to `-2 ^ 31`, which compares to a `std::size_t` as `2 ^ 64 - 2 ^ 31`. -/
theorem accumulate_wraps_above_int_max :
    accumulate [2147483648] 0 = -2147483648 ∧
    int_to_size_t (accumulate [2147483648] 0) = 18446744071562067968 := by
  have h : accumulate [2147483648] 0 = -2147483648 := by
    simp only [accumulate, List.foldl_cons, List.foldl_nil, accumulate_step, int_to_size_t,
      size_t_to_int]
    norm_num
  rw [h]
  refine ⟨rfl, ?_⟩
  simp only [int_to_size_t]
  norm_num
  rfl

theorem uniform_contract_demo : UniformIntContract lib_demo := by
  intro a b r hab
  simp only [lib_demo]
  have hpos : (0 : Int) < b - a + 1 := by omega
  have h1 := Int.emod_nonneg (r : Int) (ne_of_gt hpos)
  have h2 := Int.emod_lt_of_pos (r : Int) hpos
  omega

theorem int_to_size_t_in_range (Min Max : Nat) (hmax : Max ≤ INT_MAX) (x : Int)
    (h : (Min : Int) ≤ x ∧ x ≤ (Max : Int)) :
    Min ≤ int_to_size_t x ∧ int_to_size_t x < Min + (Max + 1 - Min) := by
  have hI : INT_MAX = 2147483647 := by norm_num [INT_MAX]
  obtain ⟨k, rfl⟩ := Int.eq_ofNat_of_zero_le (le_trans (Int.ofNat_zero_le Min) h.1)
  have hk1 : Min ≤ k := by exact_mod_cast h.1
  have hk2 : k ≤ Max := by exact_mod_cast h.2
  rw [int_to_size_t_of_nat k (by omega)]
  omega

theorem sort_perm (v : List Int) : (sort v).Perm v :=
  List.perm_insertionSort _ v

theorem sorted_counts_sum (L : RandomLib) (N Min Max : Nat) (hmm : Min ≤ Max)
    (hmax : Max ≤ INT_MAX) (hL : UniformIntContract L) :
    ((List.range' Min (Max + 1 - Min)).map
      (count_if (sort (random_sequence L N Min Max)))).sum = N := by
  have hr := random_sequence_range L N Min Max hmm hmax hL
  rw [counts_sum (sort (random_sequence L N Min Max)) Min (Max + 1 - Min)
    (fun x hx => int_to_size_t_in_range Min Max hmax x
      (hr x ((sort_perm _).mem_iff.mp hx)))]
  rw [(sort_perm _).length_eq, random_sequence_length]

/-- C9: for `Min <= Max <= INT_MAX` and a distribution honouring its contract,
`random_sequence<N, Min, Max>()` returns exactly `N` integers, each in `[Min, Max]`; after
sorting, the counting loop of `main` ends and yields, for `i` from `Min` to `Max`, the number
of elements equal to `i`; these numbers total exactly `N`; and for `N <= INT_MAX`, as in
`main`, the asserted condition evaluates to true. -/
theorem random_sequence_counts_total (L : RandomLib) (N Min Max : Nat) (hmm : Min ≤ Max)
    (hmax : Max ≤ INT_MAX) (hL : UniformIntContract L) :
    (random_sequence L N Min Max).length = N ∧
    (∀ x ∈ random_sequence L N Min Max, (Min : Int) ≤ x ∧ x ≤ (Max : Int)) ∧
    (∀ fuel, Max + 2 - Min ≤ fuel →
      count_loop (sort (random_sequence L N Min Max)) Max fuel Min [] =
        some ((List.range' Min (Max + 1 - Min)).map
          (count_if (sort (random_sequence L N Min Max))))) ∧
    ((List.range' Min (Max + 1 - Min)).map
      (count_if (sort (random_sequence L N Min Max)))).sum = N ∧
    (N ≤ INT_MAX → ∀ fuel, Max + 2 - Min ≤ fuel →
      main_random L N Min Max fuel = some true) := by
  have hI : INT_MAX = 2147483647 := by norm_num [INT_MAX]
  have hloop : ∀ fuel, Max + 2 - Min ≤ fuel →
      count_loop (sort (random_sequence L N Min Max)) Max fuel Min [] =
        some ((List.range' Min (Max + 1 - Min)).map
          (count_if (sort (random_sequence L N Min Max)))) := by
    intro fuel hfuel
    rw [count_loop_spec _ Max (by omega) fuel Min [] (by omega) hfuel]
    simp
  have hsum := sorted_counts_sum L N Min Max hmm hmax hL
  refine ⟨random_sequence_length L N Min Max, random_sequence_range L N Min Max hmm hmax hL,
    hloop, hsum, fun hN fuel hfuel => ?_⟩
  have hacc := accumulate_spec
    ((List.range' Min (Max + 1 - Min)).map (count_if (sort (random_sequence L N Min Max)))) 0
    (by rw [hsum]; omega)
  rw [Nat.zero_add, hsum] at hacc
  simp only [main_random, hloop fuel hfuel]
  rw [show ((0 : Int)) = ((0 : Nat) : Int) from rfl, hacc, int_to_size_t_of_nat N (by omega)]
  simp

/-- Instance of C9: ten elements in `[0, 10]` from the concrete library. -/
theorem random_sequence_counts_total_witness :
    (0 ≤ 10 ∧ 10 ≤ INT_MAX ∧ UniformIntContract lib_demo) ∧
    ((random_sequence lib_demo 10 0 10).length = 10 ∧
    (∀ x ∈ random_sequence lib_demo 10 0 10, ((0 : Nat) : Int) ≤ x ∧ x ≤ ((10 : Nat) : Int)) ∧
    (∀ fuel, 10 + 2 - 0 ≤ fuel →
      count_loop (sort (random_sequence lib_demo 10 0 10)) 10 fuel 0 [] =
        some ((List.range' 0 (10 + 1 - 0)).map
          (count_if (sort (random_sequence lib_demo 10 0 10))))) ∧
    ((List.range' 0 (10 + 1 - 0)).map
      (count_if (sort (random_sequence lib_demo 10 0 10)))).sum = 10 ∧
    (10 ≤ INT_MAX → ∀ fuel, 10 + 2 - 0 ≤ fuel →
      main_random lib_demo 10 0 10 fuel = some true)) :=
  ⟨⟨by decide, by norm_num [INT_MAX], uniform_contract_demo⟩,
    random_sequence_counts_total lib_demo 10 0 10 (by decide) (by norm_num [INT_MAX])
      uniform_contract_demo⟩

end jc
